import Mathlib

/-!
# QuestScribe core: shallow embedding and verification

This file embeds the core state-management engine of QuestScribe
(`src-tauri/src/state.rs` and `src-tauri/src/main.rs`) in Lean and proves
properties of it.

Modelling conventions:
* `serde_json` values are modelled by `JsonValue`/`JsonMap`.  The engine only
  ever produces numbers, strings, booleans and objects (`json!(num)`,
  `json!(bool)`, `json!(string)`, `json!({})` and nested inserts), so the
  `Null`/`Array` constructors of `serde_json::Value` are omitted.  Objects are
  modelled as association lists in iteration order; inserting at an existing
  key replaces the value in place, as both `serde_json::Map` backends do.
* `f64` numbers are modelled as rationals (`ℚ`).  `str::parse::<f64>` is
  modelled by `parseF64` implementing the finite-number part of the Rust
  float grammar (sign, digits, fraction, exponent); the non-finite literals
  (`inf`, `NaN`) have no rational counterpart and are outside the model.
* `HashMap<String, _>` stores are modelled as Lean lists in iteration order,
  keyed by the `id` field (the code always uses the id as the key).
  `insert` of a fresh key is modelled as an append; `remove`/`retain` as a
  filter; `get_mut`-style point updates as a `List.map` that rewrites the
  entry with the matching id.
* `uuid::Uuid::new_v4()` and wall-clock timestamps are injected as explicit
  parameters of the operations that use them.
-/

/-- One typed mutation, `state.rs` `ChangeType` (serde lowercase names
`absolute` / `relative` / `remove`). -/
inductive ChangeType where
  | absolute
  | relative
  | remove
  deriving DecidableEq, Repr

/-- Model of `state.rs` `FieldChange`. -/
structure FieldChange where
  field_name : String
  change_type : ChangeType
  value : String
  deriving DecidableEq, Repr

/-- Model of `state.rs` `MarkerVisual`. -/
structure MarkerVisual where
  icon : String
  color : String
  deriving DecidableEq, Repr

/-- Model of `state.rs` `FieldMetadata`. -/
structure FieldMetadata where
  created_at : Int
  last_modified : Int
  deriving DecidableEq, Repr

/-- Model of `state.rs` `Entity`; `field_metadata : HashMap<String, FieldMetadata>` is
modelled as an association list in iteration order. -/
structure Entity where
  id : String
  name : String
  fields : List String
  color : String
  field_metadata : List (String × FieldMetadata)
  deriving DecidableEq, Repr

/-- Model of `state.rs` `Marker`. -/
structure Marker where
  id : String
  position : Nat
  entity_id : String
  changes : List FieldChange
  visual : MarkerVisual
  description : String
  created_at : Int
  modified_at : Int
  deriving DecidableEq, Repr

/-- Model of `state.rs` `AppState`: the two shared stores, in iteration order. -/
structure AppSt where
  entities : List Entity
  markers : List Marker
  deriving DecidableEq, Repr

mutual
/-- Model of `serde_json::Value` as produced by this engine: numbers (modelled as
rationals), strings, booleans and objects.  `Null`/`Array` never arise. -/
inductive JsonValue where
  | num (q : ℚ)
  | str (s : String)
  | bool (b : Bool)
  | obj (m : JsonMap)
  deriving DecidableEq

/-- Model of `serde_json::Map<String, Value>` as an association list in iteration
order. -/
inductive JsonMap where
  | nil
  | cons (key : String) (val : JsonValue) (rest : JsonMap)
  deriving DecidableEq
end

/-- Model of `Map::get`. -/
def mapGet : JsonMap → String → Option JsonValue
  | .nil, _ => none
  | .cons k v rest, key => if k = key then some v else mapGet rest key

/-- Model of `Map::insert`: replace in place if the key is present, else append. -/
def mapInsert : JsonMap → String → JsonValue → JsonMap
  | .nil, key, v => .cons key v .nil
  | .cons k w rest, key, v =>
      if k = key then .cons k v rest else .cons k w (mapInsert rest key v)

/-- Model of `Map::remove`. -/
def mapRemove : JsonMap → String → JsonMap
  | .nil, _ => .nil
  | .cons k w rest, key =>
      if k = key then mapRemove rest key else .cons k w (mapRemove rest key)

/-- Model of Rust `str::split('.')` at the character level: splits a
character list at every `'.'`, keeping empty segments (`"a..b"` gives
`["a", "", "b"]`, `""` gives `[""]`). -/
def splitChars : List Char → List (List Char)
  | [] => [[]]
  | c :: cs =>
      if c = '.' then [] :: splitChars cs
      else
        match splitChars cs with
        | [] => [[c]]
        | w :: ws => (c :: w) :: ws

/-- Model of Rust `path.split('.').collect::<Vec<_>>()`. -/
def splitDots (s : String) : List String :=
  (splitChars s.data).map (fun w => ⟨w⟩)

/-- Model of `main.rs` `insert_at_path` (the recursive worker of `set_nested_value`):
creates missing intermediate nodes as empty objects via
`entry(..).or_insert(json!({}))`, but silently does nothing when an existing
intermediate entry is not an object (`as_object_mut` fails). -/
def insert_at_path : JsonMap → List String → JsonValue → JsonMap
  | t, [], _ => t
  | t, [k], v => mapInsert t k v
  | t, k :: k' :: rest, v =>
      match mapGet t k with
      | none => mapInsert t k (.obj (insert_at_path .nil (k' :: rest) v))
      | some (.obj m) => mapInsert t k (.obj (insert_at_path m (k' :: rest) v))
      | some _ => t

/-- Model of `main.rs` `set_nested_value` (the one-segment fast path coincides with
`insert_at_path` on a singleton list). -/
def set_nested_value (t : JsonMap) (path : String) (v : JsonValue) : JsonMap :=
  insert_at_path t (splitDots path) v

/-- The walking loop of `main.rs` `get_nested_value`: intermediate segments
must be objects, otherwise the result is `none`. -/
def get_at_path : JsonMap → List String → Option JsonValue
  | _, [] => none
  | t, [k] => mapGet t k
  | t, k :: k' :: rest =>
      match mapGet t k with
      | some (.obj m) => get_at_path m (k' :: rest)
      | _ => none

/-- Model of `main.rs` `get_nested_value`. -/
def get_nested_value (t : JsonMap) (path : String) : Option JsonValue :=
  get_at_path t (splitDots path)

/-- Model of `main.rs` `remove_at_path` (the recursive worker of
`remove_nested_value`): a missing or non-object ancestor makes it a no-op. -/
def remove_at_path : JsonMap → List String → JsonMap
  | t, [] => t
  | t, [k] => mapRemove t k
  | t, k :: k' :: rest =>
      match mapGet t k with
      | some (.obj m) => mapInsert t k (.obj (remove_at_path m (k' :: rest)))
      | _ => t

/-- Model of `main.rs` `remove_nested_value`. -/
def remove_nested_value (t : JsonMap) (path : String) : JsonMap :=
  remove_at_path t (splitDots path)

/-- Digit run at the head of a character list: the digits and the rest. -/
def takeDigits : List Char → List Char × List Char
  | [] => ([], [])
  | c :: cs =>
      if c.isDigit then
        let (d, rest) := takeDigits cs
        (c :: d, rest)
      else ([], c :: cs)

/-- Numeric value of a digit run. -/
def digitsToNat (ds : List Char) : Nat :=
  ds.foldl (fun n c => n * 10 + (c.toNat - 48)) 0

/-- Rational `sg * m * 10 ^ k` built from the parsed sign, digit value and
decimal exponent. -/
def ratOfDigits (sg : Int) (m : Nat) (k : Int) : ℚ :=
  match k with
  | .ofNat n => mkRat (sg * m * ((10 : Nat) ^ n : Nat)) 1
  | .negSucc n => mkRat (sg * m) ((10 : Nat) ^ (n + 1))

/-- Optional exponent suffix `('e'|'E') sign? digits` of the Rust float
grammar; `none` when the suffix is malformed or followed by garbage. -/
def parseExpSuffix : List Char → Option Int
  | [] => some 0
  | 'e' :: cs => parseSignedDigits cs
  | 'E' :: cs => parseSignedDigits cs
  | _ => none
where
  parseSignedDigits (cs : List Char) : Option Int :=
    let (sg, cs1) : Int × List Char :=
      match cs with
      | '+' :: r => (1, r)
      | '-' :: r => (-1, r)
      | r => (1, r)
    let (d, rest) := takeDigits cs1
    if d.isEmpty || !rest.isEmpty then none else some (sg * digitsToNat d)

/-- Model of Rust `str::parse::<f64>()` on the finite-number grammar
`sign? (digits ('.' digits?)? | '.' digits) exponent?`; numbers are rationals, and
the non-finite literals (`inf`, `infinity`, `NaN`) are outside the model. -/
def parseF64 (s : String) : Option ℚ :=
  let cs := s.data
  let (sg, cs1) : Int × List Char :=
    match cs with
    | '+' :: r => (1, r)
    | '-' :: r => (-1, r)
    | r => (1, r)
  let (ip, cs2) := takeDigits cs1
  match cs2 with
  | '.' :: r =>
      let (fp, cs3) := takeDigits r
      if ip.isEmpty && fp.isEmpty then none
      else
        (parseExpSuffix cs3).map fun e =>
          ratOfDigits sg (digitsToNat (ip ++ fp)) (e - fp.length)
  | r =>
      if ip.isEmpty then none
      else (parseExpSuffix r).map fun e => ratOfDigits sg (digitsToNat ip) e

/-- Payload coercion used in the `Absolute` branch of the replay loops:
number if it parses as `f64`, else boolean for the exact texts
`"true"`/`"false"`, else the raw text. -/
def coerceValue (v : String) : JsonValue :=
  match parseF64 v with
  | some q => .num q
  | none =>
      if v = "true" then .bool true
      else if v = "false" then .bool false
      else .str v

/-- Model of `serde_json::Value::as_f64`: numbers only. -/
def asF64 : JsonValue → Option ℚ
  | .num q => some q
  | _ => none

/-- Rational addition written with `mkRat` so that the kernel can evaluate
it (`Rat.add` is irreducible); `ratAdd_eq_add` below identifies it with
`+`.  Models f64 `current_val + delta` as exact rational addition. -/
def ratAdd (a b : ℚ) : ℚ :=
  mkRat (a.num * b.den + b.num * a.den) (a.den * b.den)

/-- One step of the replay loop shared verbatim by `format_character_sheet`,
`get_entity_state` and `duplicate_entity` in `main.rs`: apply one
`FieldChange` to the current state map. -/
def applyChange (t : JsonMap) (c : FieldChange) : JsonMap :=
  match c.change_type with
  | .remove => remove_nested_value t c.field_name
  | .absolute => set_nested_value t c.field_name (coerceValue c.value)
  | .relative =>
      match parseF64 c.value with
      | some delta =>
          let cur : ℚ := ((get_nested_value t c.field_name).bind asF64).getD 0
          set_nested_value t c.field_name (.num (ratAdd cur delta))
      | none => set_nested_value t c.field_name (.str c.value)

/-- Apply a marker's change list in order. -/
def applyChanges (t : JsonMap) (cs : List FieldChange) : JsonMap :=
  cs.foldl applyChange t

/-- Apply an ordered list of markers. -/
def applyMarkers (t : JsonMap) (ms : List Marker) : JsonMap :=
  ms.foldl (fun acc m => applyChanges acc m.changes) t

/-- Insert a marker into a position-sorted list, before the first marker of
greater-or-equal position. -/
def insertByPos (m : Marker) : List Marker → List Marker
  | [] => [m]
  | x :: xs =>
      if x.position < m.position then x :: insertByPos m xs else m :: x :: xs

/-- Model of `relevant_markers.sort_by_key(|m| m.position)`: Rust's
`sort_by_key` is a stable sort, and stable insertion sort is one. -/
def sortByPos : List Marker → List Marker
  | [] => []
  | x :: xs => insertByPos x (sortByPos xs)

/-- The selection `markers.values().filter(|m| m.entity_id == entity_id &&
m.position <= position)` shared by `get_entity_state` and
`duplicate_entity`. -/
def relevant_markers (st : AppSt) (entity_id : String) (position : Nat) :
    List Marker :=
  st.markers.filter fun m => m.entity_id == entity_id && m.position ≤ position

/-- Model of `entities.get(&id)` on the entity store. -/
def lookupEntity (st : AppSt) (entity_id : String) : Option Entity :=
  st.entities.find? fun e => e.id == entity_id

/-- Model of `main.rs` `get_entity_state`: verify the entity exists, select its
markers at or before `position`, sort them by position and replay them over
an empty map. -/
def get_entity_state (st : AppSt) (entity_id : String) (position : Nat) :
    Except String JsonMap :=
  if (lookupEntity st entity_id).isSome then
    .ok (applyMarkers .nil (sortByPos (relevant_markers st entity_id position)))
  else .error "Entity not found"

/-- Character for one decimal digit. -/
def digitChar (n : Nat) : Char :=
  Char.ofNat (48 + n)

/-- Decimal digits of the proper fraction `num / den`, stopping when the
remainder is zero; the fuel bound only totalises the function, every value
the engine produces has a terminating decimal expansion. -/
def fracDigits (num den : Nat) : Nat → List Char
  | 0 => []
  | fuel + 1 =>
      if num = 0 then []
      else digitChar (num * 10 / den) :: fracDigits (num * 10 % den) den fuel

/-- Model of `serde_json::Number::to_string` for the `f64`-backed numbers
this engine produces: shortest decimal form, with a trailing `.0` for
integral values (ryu prints `10.0_f64` as `"10.0"`). -/
def numToString (q : ℚ) : String :=
  let sgn := if q.num < 0 then "-" else ""
  let n := q.num.natAbs
  let d := q.den
  let fr := fracDigits (n % d) d 64
  sgn ++ toString (n / d) ++ "." ++ (if fr.isEmpty then "0" else ⟨fr⟩)

/-- Leaf rendering in `flatten_state_to_changes`: `Number`/`Bool` via
`to_string`, `String` verbatim.  The catch-all `_ => value.to_string()` arm
is unreachable (objects are recursed into, `Null`/`Array` never arise) and
is modelled by the empty string. -/
def leafString : JsonValue → String
  | .num q => numToString q
  | .bool b => if b then "true" else "false"
  | .str s => s
  | .obj _ => ""

/-- Model of `main.rs` `flatten_state_to_changes`: depth-first flattening of a state
map into `Absolute` changes with dot-joined paths, in iteration order. -/
def flatten_state_to_changes : JsonMap → String → List FieldChange
  | .nil, _ => []
  | .cons k v rest, pre =>
      let field_name := if pre = "" then k else pre ++ "." ++ k
      (match v with
       | .obj m => flatten_state_to_changes m field_name
       | leaf => [⟨field_name, .absolute, leafString leaf⟩]) ++
        flatten_state_to_changes rest pre

/-- Model of `HashMap::insert` on the entity store: replace the entry with the same
id in place, else append (a fresh key's iteration position is modelled as
the end of the list). -/
def insertEntity (es : List Entity) (e : Entity) : List Entity :=
  if es.any (fun e' => e'.id == e.id) then
    es.map fun e' => if e'.id == e.id then e else e'
  else es ++ [e]

/-- Model of `main.rs` `update_entity`: rename and/or recolor an entity; a recolor
rewrites `visual.color` of every marker owned by it.  Returns the updated
store and the cloned entity. -/
def update_entity (st : AppSt) (entity_id : String) (name : Option String)
    (color : Option String) : Except String (AppSt × Entity) :=
  match lookupEntity st entity_id with
  | none => .error "Entity not found"
  | some e =>
      let e1 := match name with
        | some n => { e with name := n }
        | none => e
      match color with
      | some new_color =>
          let e2 := { e1 with color := new_color }
          .ok ({ entities := st.entities.map fun e' =>
                   if e'.id == entity_id then e2 else e',
                 markers := st.markers.map fun m =>
                   if m.entity_id == entity_id then
                     { m with visual := { m.visual with color := new_color } }
                   else m },
               e2)
      | none =>
          .ok ({ st with entities := st.entities.map fun e' =>
                   if e'.id == entity_id then e1 else e' },
               e1)

/-- Model of `main.rs` `delete_entity`: error when the id is absent; otherwise retain
only markers of other entities and remove the entity. -/
def delete_entity (st : AppSt) (entity_id : String) : Except String AppSt :=
  if (lookupEntity st entity_id).isSome then
    .ok { entities := st.entities.filter fun e => e.id ≠ entity_id,
          markers := st.markers.filter fun m => m.entity_id ≠ entity_id }
  else .error "Entity not found"

/-- Model of `main.rs` `delete_field_completely`: error when the entity is absent;
otherwise drop `field_name` from the entity's `fields` registry and strip
every change with that field name from every marker of that entity.
`field_metadata` is not touched. -/
def delete_field_completely (st : AppSt) (entity_id field_name : String) :
    Except String AppSt :=
  if (lookupEntity st entity_id).isSome then
    .ok { entities := st.entities.map fun e =>
            if e.id == entity_id then
              { e with fields := e.fields.filter fun f => f ≠ field_name }
            else e,
          markers := st.markers.map fun m =>
            if m.entity_id == entity_id then
              { m with changes := m.changes.filter fun c =>
                  c.field_name ≠ field_name }
            else m }
  else .error "Entity not found"

/-- Model of `main.rs` `update_marker_positions`: best-effort bulk repositioning; a
pair whose marker id is unknown finds no entry to update. -/
def update_marker_positions (st : AppSt)
    (position_updates : List (String × Nat)) : Except String AppSt :=
  .ok (position_updates.foldl
    (fun s u =>
      { s with markers := s.markers.map fun m =>
          if m.id == u.1 then { m with position := u.2 } else m })
    st)

/-- Model of `main.rs` `duplicate_entity`.  The ids `new_id`, `marker_id` (the two
`Uuid::new_v4()` calls) and `now` are injected.  Returns the updated store,
the new entity and the optional synthetic marker. -/
def duplicate_entity (st : AppSt) (entity_id new_name : String)
    (cursor_position : Nat) (new_id marker_id : String) (now : Int) :
    Except String (AppSt × Entity × Option Marker) :=
  match lookupEntity st entity_id with
  | none => .error "Entity not found"
  | some source_entity =>
      let new_entity : Entity :=
        { id := new_id, name := new_name, fields := source_entity.fields,
          color := source_entity.color,
          field_metadata := source_entity.field_metadata }
      let st1 : AppSt :=
        { st with entities := insertEntity st.entities new_entity }
      let relevant := relevant_markers st entity_id cursor_position
      if relevant.isEmpty then
        .ok (st1, new_entity, none)
      else
        let current_state := applyMarkers .nil (sortByPos relevant)
        let changes := flatten_state_to_changes current_state ""
        if changes.isEmpty then
          .ok (st1, new_entity, none)
        else
          let marker : Marker :=
            { id := marker_id, position := cursor_position,
              entity_id := new_id, changes := changes,
              visual := { icon := "📋", color := source_entity.color },
              description := "Duplicated from " ++ source_entity.name,
              created_at := now, modified_at := now }
          .ok ({ st1 with markers := st1.markers ++ [marker] },
               new_entity, some marker)

/-- Rejoining with dots, the inverse of `splitChars`. -/
def joinDots : List (List Char) → List Char
  | [] => []
  | [w] => w
  | w :: ws => w ++ '.' :: joinDots ws

/-- The walk of `insert_at_path` is unobstructed: every intermediate segment
that already exists is an object (missing segments get created). -/
def path_clear : JsonMap → List String → Bool
  | _, [] => true
  | _, [_] => true
  | t, k :: k' :: rest =>
      match mapGet t k with
      | none => true
      | some (.obj m) => path_clear m (k' :: rest)
      | some _ => false

/-- Some ancestor key on the way to the parent of the final segment is
absent. -/
def ancestor_missing : JsonMap → List String → Bool
  | _, [] => false
  | _, [_] => false
  | t, k :: k' :: rest =>
      match mapGet t k with
      | none => true
      | some (.obj m) => ancestor_missing m (k' :: rest)
      | some _ => false

/-- Non-object values: numbers, strings, booleans. -/
def is_scalar : JsonValue → Bool
  | .obj _ => false
  | _ => true

/-- No scalar value sits at path `fs` of `t`. -/
def no_scalar_at (t : JsonMap) (fs : List String) : Prop :=
  ∀ v, get_at_path t fs = some v → is_scalar v = false

deriving instance DecidableEq for Except

/-! ## Concrete states used in counterexamples and witnesses -/

/-- Entity used in the ADD-accumulation scenario. -/
def hpEntity : Entity := ⟨"e1", "Hero", ["stats.HP"], "#FFD700", []⟩

/-- Relative change of +10 on `stats.HP` at position 5. -/
def hpMarkerA : Marker :=
  ⟨"mA", 5, "e1", [⟨"stats.HP", .relative, "10"⟩], ⟨"⭐", "#FFD700"⟩, "", 0, 0⟩

/-- Relative change of +5 on `stats.HP` at position 10. -/
def hpMarkerB : Marker :=
  ⟨"mB", 10, "e1", [⟨"stats.HP", .relative, "5"⟩], ⟨"⭐", "#FFD700"⟩, "", 0, 0⟩

/-- Store holding `hpEntity` with its two relative markers. -/
def hpState : AppSt := ⟨[hpEntity], [hpMarkerA, hpMarkerB]⟩

/-- Entity used in the duplication scenario. -/
def spellEntity : Entity := ⟨"e1", "Hero", ["spells.fire"], "#FFD700", []⟩

/-- Sets `spells.fire` at position 1. -/
def spellSet : Marker :=
  ⟨"m1", 1, "e1", [⟨"spells.fire", .absolute, "x"⟩], ⟨"⭐", "#FFD700"⟩, "", 0, 0⟩

/-- Removes `spells.fire` at position 2, leaving `{spells: {}}`. -/
def spellRemove : Marker :=
  ⟨"m2", 2, "e1", [⟨"spells.fire", .remove, ""⟩], ⟨"⭐", "#FFD700"⟩, "", 0, 0⟩

/-- Store holding `spellEntity` with its set-then-remove history. -/
def spellState : AppSt := ⟨[spellEntity], [spellSet, spellRemove]⟩

/-- The entity `duplicate_entity` creates from `spellEntity` as `"e2"`. -/
def spellCopyEntity : Entity := ⟨"e2", "Copy", ["spells.fire"], "#FFD700", []⟩

/-- The store after duplicating `spellEntity` at position 2. -/
def spellStateAfter : AppSt :=
  ⟨[spellEntity, spellCopyEntity], [spellSet, spellRemove]⟩

/-- Entity whose registry holds both `stats` and `stats.HP`. -/
def purgeEntity : Entity := ⟨"e1", "Hero", ["stats", "stats.HP"], "#FFD700", []⟩

/-- Sets `stats` at position 0. -/
def purgeMarker0 : Marker :=
  ⟨"m0", 0, "e1", [⟨"stats", .absolute, "1"⟩], ⟨"⭐", "#FFD700"⟩, "", 0, 0⟩

/-- Sets `stats.HP` at position 1. -/
def purgeMarker1 : Marker :=
  ⟨"m1", 1, "e1", [⟨"stats.HP", .absolute, "5"⟩], ⟨"⭐", "#FFD700"⟩, "", 0, 0⟩

/-- Store for the field-purge scenario. -/
def purgeState : AppSt := ⟨[purgeEntity], [purgeMarker0, purgeMarker1]⟩

/-- State `purgeState` after `delete_field_completely(e1, "stats")`. -/
def purgeStateAfter : AppSt :=
  ⟨[⟨"e1", "Hero", ["stats.HP"], "#FFD700", []⟩],
   [⟨"m0", 0, "e1", [], ⟨"⭐", "#FFD700"⟩, "", 0, 0⟩, purgeMarker1]⟩

/-! ## Map lemmas -/

theorem ratAdd_eq_add (a b : ℚ) : ratAdd a b = a + b :=
  (Rat.add_def' a b).symm

theorem mapGet_insert_self : ∀ (t : JsonMap) (k : String) (v : JsonValue),
    mapGet (mapInsert t k v) k = some v
  | .nil, k, v => by simp [mapInsert, mapGet]
  | .cons k' w rest, k, v => by
      by_cases h : k' = k <;>
        simp [mapInsert, mapGet, h, mapGet_insert_self rest k v]

theorem mapGet_insert_ne : ∀ (t : JsonMap) (k k' : String) (v : JsonValue),
    k' ≠ k → mapGet (mapInsert t k v) k' = mapGet t k'
  | .nil, k, k', v, h => by simp [mapInsert, mapGet, Ne.symm h]
  | .cons k₀ w rest, k, k', v, h => by
      by_cases h0 : k₀ = k <;>
        simp [mapInsert, mapGet, h0, Ne.symm h, mapGet_insert_ne rest k k' v h]

theorem mapInsert_get_self : ∀ (t : JsonMap) (k : String) (v : JsonValue),
    mapGet t k = some v → mapInsert t k v = t
  | .nil, k, v => by simp [mapGet]
  | .cons k₀ w rest, k, v => by
      by_cases h0 : k₀ = k <;>
        simp_all [mapInsert, mapGet, h0, mapInsert_get_self rest k v]

theorem mapGet_remove_self : ∀ (t : JsonMap) (k : String),
    mapGet (mapRemove t k) k = none
  | .nil, k => by simp [mapRemove, mapGet]
  | .cons k₀ w rest, k => by
      by_cases h0 : k₀ = k <;>
        simp [mapRemove, mapGet, h0, mapGet_remove_self rest k]

theorem mapGet_remove_ne : ∀ (t : JsonMap) (k k' : String),
    k' ≠ k → mapGet (mapRemove t k) k' = mapGet t k'
  | .nil, k, k', h => by simp [mapRemove]
  | .cons k₀ w rest, k, k', h => by
      by_cases h0 : k₀ = k
      · subst h0
        simp [mapRemove, mapGet, Ne.symm h, mapGet_remove_ne rest k₀ k' h]
      · simp [mapRemove, mapGet, h0, mapGet_remove_ne rest k k' h]

/-! ## Dotted-path splitting lemmas -/

theorem splitChars_ne_nil : ∀ cs : List Char, splitChars cs ≠ []
  | [] => by simp [splitChars]
  | c :: cs => by
      by_cases h : c = '.'
      · simp [splitChars, h]
      · simp only [splitChars, if_neg h]
        cases hs : splitChars cs with
        | nil => simp
        | cons w ws => simp

theorem joinDots_splitChars : ∀ cs : List Char, joinDots (splitChars cs) = cs
  | [] => by simp [splitChars, joinDots]
  | c :: cs => by
      by_cases h : c = '.'
      · subst h
        have ihs := joinDots_splitChars cs
        cases hs : splitChars cs with
        | nil => exact absurd hs (splitChars_ne_nil cs)
        | cons w ws =>
            rw [hs] at ihs
            simp [splitChars, hs, joinDots, ihs]
      · have ihs := joinDots_splitChars cs
        cases hs : splitChars cs with
        | nil => exact absurd hs (splitChars_ne_nil cs)
        | cons w ws =>
            rw [hs] at ihs
            cases ws with
            | nil => simp_all [splitChars, joinDots, hs]
            | cons w' ws' => simp_all [splitChars, joinDots, hs]

theorem splitChars_injective : Function.Injective splitChars := by
  intro a b hab
  have := joinDots_splitChars a
  rw [hab, joinDots_splitChars b] at this
  exact this.symm

theorem splitDots_injective : Function.Injective splitDots := by
  intro a b hab
  have hmk : Function.Injective (fun w : List Char => (⟨w⟩ : String)) :=
    fun x y hxy => congrArg String.data hxy
  have := List.map_injective_iff.mpr hmk hab
  have := splitChars_injective this
  cases a; cases b; exact congrArg String.mk this

theorem splitDots_ne_nil (s : String) : splitDots s ≠ [] := by
  unfold splitDots
  simp [splitChars_ne_nil]

/-! ## Path-walk lemmas -/

theorem path_clear_nil : ∀ parts : List String, path_clear .nil parts = true
  | [] => rfl
  | [_] => rfl
  | _ :: _ :: _ => rfl

theorem get_at_path_nil : ∀ parts : List String,
    get_at_path .nil parts = none
  | [] => rfl
  | [_] => rfl
  | _ :: _ :: _ => rfl

theorem get_insert_at_path_clear :
    ∀ (parts : List String) (t : JsonMap) (v : JsonValue), parts ≠ [] →
      path_clear t parts = true →
      get_at_path (insert_at_path t parts v) parts = some v
  | [], _, _, hne, _ => absurd rfl hne
  | [k], t, v, _, _ => by
      simp [insert_at_path, get_at_path, mapGet_insert_self]
  | k :: k' :: rest, t, v, _, hclear => by
      cases hget : mapGet t k with
      | none =>
          have hinner := get_insert_at_path_clear (k' :: rest) .nil v
            (by simp) (path_clear_nil _)
          simp [insert_at_path, hget, get_at_path, mapGet_insert_self, hinner]
      | some w =>
          cases w with
          | obj m =>
              have hcm : path_clear m (k' :: rest) = true := by
                simpa [path_clear, hget] using hclear
              have hinner := get_insert_at_path_clear (k' :: rest) m v
                (by simp) hcm
              simp [insert_at_path, hget, get_at_path, mapGet_insert_self,
                hinner]
          | num q => simp [path_clear, hget] at hclear
          | str s => simp [path_clear, hget] at hclear
          | bool b => simp [path_clear, hget] at hclear

theorem insert_at_path_blocked :
    ∀ (parts : List String) (t : JsonMap) (v : JsonValue),
      path_clear t parts = false → insert_at_path t parts v = t
  | [], t, v, h => by simp [path_clear] at h
  | [k], t, v, h => by simp [path_clear] at h
  | k :: k' :: rest, t, v, h => by
      cases hget : mapGet t k with
      | none => simp [path_clear, hget] at h
      | some w =>
          cases w with
          | obj m =>
              have hcm : path_clear m (k' :: rest) = false := by
                simpa [path_clear, hget] using h
              have hinner := insert_at_path_blocked (k' :: rest) m v hcm
              simp [insert_at_path, hget, hinner,
                mapInsert_get_self t k (.obj m) hget]
          | num q => simp [insert_at_path, hget]
          | str s => simp [insert_at_path, hget]
          | bool b => simp [insert_at_path, hget]

theorem get_remove_at_path :
    ∀ (parts : List String) (t : JsonMap),
      get_at_path (remove_at_path t parts) parts = none
  | [], t => rfl
  | [k], t => by simp [remove_at_path, get_at_path, mapGet_remove_self]
  | k :: k' :: rest, t => by
      cases hget : mapGet t k with
      | none => simp [remove_at_path, hget, get_at_path]
      | some w =>
          cases w with
          | obj m =>
              have hinner := get_remove_at_path (k' :: rest) m
              simp [remove_at_path, hget, get_at_path, mapGet_insert_self,
                hinner]
          | num q => simp [remove_at_path, hget, get_at_path]
          | str s => simp [remove_at_path, hget, get_at_path]
          | bool b => simp [remove_at_path, hget, get_at_path]

theorem remove_at_path_missing :
    ∀ (parts : List String) (t : JsonMap),
      ancestor_missing t parts = true → remove_at_path t parts = t
  | [], t, h => by simp [ancestor_missing] at h
  | [k], t, h => by simp [ancestor_missing] at h
  | k :: k' :: rest, t, h => by
      cases hget : mapGet t k with
      | none => simp [remove_at_path, hget]
      | some w =>
          cases w with
          | obj m =>
              have hm : ancestor_missing m (k' :: rest) = true := by
                simpa [ancestor_missing, hget] using h
              have hinner := remove_at_path_missing (k' :: rest) m hm
              simp [remove_at_path, hget, hinner,
                mapInsert_get_self t k (.obj m) hget]
          | num q => simp [ancestor_missing, hget] at h
          | str s => simp [ancestor_missing, hget] at h
          | bool b => simp [ancestor_missing, hget] at h

theorem is_scalar_coerceValue (s : String) : is_scalar (coerceValue s) = true := by
  unfold coerceValue
  cases parseF64 s with
  | none =>
      by_cases h1 : s = "true"
      · simp [h1, is_scalar]
      · by_cases h2 : s = "false" <;> simp [h1, h2, is_scalar]
  | some q => simp [is_scalar]

/-- Removal never creates a scalar: a scalar found at any path after
`remove_at_path` was already there. -/
theorem scalar_after_remove :
    ∀ (gs : List String) (t : JsonMap) (fs : List String) (v : JsonValue),
      get_at_path (remove_at_path t gs) fs = some v → is_scalar v = true →
      get_at_path t fs = some v
  | [], t, fs, v, hv, _ => hv
  | [k], t, fs, v, hv, hs => by
      cases fs with
      | nil => simp [get_at_path] at hv
      | cons f0 fs' =>
          by_cases hf : f0 = k
          · subst hf
            cases fs' with
            | nil =>
                rw [remove_at_path] at hv
                simp [get_at_path, mapGet_remove_self] at hv
            | cons f1 fs'' =>
                rw [remove_at_path] at hv
                simp [get_at_path, mapGet_remove_self] at hv
          · cases fs' with
            | nil =>
                rw [remove_at_path] at hv
                simpa [get_at_path, mapGet_remove_ne t k f0 hf] using hv
            | cons f1 fs'' =>
                rw [remove_at_path] at hv
                simpa [get_at_path, mapGet_remove_ne t k f0 hf] using hv
  | k :: k' :: rest, t, fs, v, hv, hs => by
      cases hget : mapGet t k with
      | none => rwa [remove_at_path, hget] at hv
      | some w =>
          cases w with
          | obj m =>
              rw [remove_at_path, hget] at hv
              cases fs with
              | nil => simp [get_at_path] at hv
              | cons f0 fs' =>
                  by_cases hf : f0 = k
                  · subst hf
                    cases fs' with
                    | nil =>
                        simp [get_at_path, mapGet_insert_self] at hv
                        rw [← hv] at hs
                        simp [is_scalar] at hs
                    | cons f1 fs'' =>
                        simp only [get_at_path, mapGet_insert_self] at hv
                        have := scalar_after_remove (k' :: rest) m
                          (f1 :: fs'') v hv hs
                        simp [get_at_path, hget, this]
                  · cases fs' with
                    | nil =>
                        simpa [get_at_path, mapGet_insert_ne t k f0 _ hf]
                          using hv
                    | cons f1 fs'' =>
                        simpa [get_at_path, mapGet_insert_ne t k f0 _ hf]
                          using hv
          | num q => rwa [remove_at_path, hget] at hv
          | str s => rwa [remove_at_path, hget] at hv
          | bool b => rwa [remove_at_path, hget] at hv

/-- Setting a scalar at path `gs` never creates a scalar at a different
path: a scalar found at `fs ≠ gs` after `insert_at_path` was already
there. -/
theorem scalar_after_insert :
    ∀ (gs : List String) (t : JsonMap) (fs : List String)
      (v w : JsonValue), gs ≠ fs → is_scalar v = true →
      get_at_path (insert_at_path t gs v) fs = some w → is_scalar w = true →
      get_at_path t fs = some w
  | [], t, fs, v, w, _, _, hw, _ => hw
  | [k], t, fs, v, w, hne, hv, hw, hs => by
      cases fs with
      | nil => simp [get_at_path] at hw
      | cons f0 fs' =>
          by_cases hf : f0 = k
          · subst hf
            cases fs' with
            | nil => exact absurd rfl hne
            | cons f1 fs'' =>
                rw [insert_at_path] at hw
                simp only [get_at_path, mapGet_insert_self] at hw
                cases v with
                | obj m => simp [is_scalar] at hv
                | num q => simp at hw
                | str s => simp at hw
                | bool b => simp at hw
          · cases fs' with
            | nil =>
                rw [insert_at_path] at hw
                simpa [get_at_path, mapGet_insert_ne t k f0 v hf] using hw
            | cons f1 fs'' =>
                rw [insert_at_path] at hw
                simpa [get_at_path, mapGet_insert_ne t k f0 v hf] using hw
  | k :: k' :: rest, t, fs, v, w, hne, hv, hw, hs => by
      cases hget : mapGet t k with
      | none =>
          rw [insert_at_path, hget] at hw
          cases fs with
          | nil => simp [get_at_path] at hw
          | cons f0 fs' =>
              by_cases hf : f0 = k
              · subst hf
                cases fs' with
                | nil =>
                    simp [get_at_path, mapGet_insert_self] at hw
                    rw [← hw] at hs
                    simp [is_scalar] at hs
                | cons f1 fs'' =>
                    simp only [get_at_path, mapGet_insert_self] at hw
                    have hne' : k' :: rest ≠ f1 :: fs'' := by
                      intro hcon
                      exact hne (by rw [hcon])
                    have := scalar_after_insert (k' :: rest) .nil
                      (f1 :: fs'') v w hne' hv hw hs
                    rw [get_at_path_nil] at this
                    exact absurd this (by simp)
              · cases fs' with
                | nil =>
                    simpa [get_at_path, mapGet_insert_ne t k f0 _ hf] using hw
                | cons f1 fs'' =>
                    simpa [get_at_path, mapGet_insert_ne t k f0 _ hf] using hw
      | some u =>
          cases u with
          | obj m =>
              rw [insert_at_path, hget] at hw
              cases fs with
              | nil => simp [get_at_path] at hw
              | cons f0 fs' =>
                  by_cases hf : f0 = k
                  · subst hf
                    cases fs' with
                    | nil =>
                        simp [get_at_path, mapGet_insert_self] at hw
                        rw [← hw] at hs
                        simp [is_scalar] at hs
                    | cons f1 fs'' =>
                        simp only [get_at_path, mapGet_insert_self] at hw
                        have hne' : k' :: rest ≠ f1 :: fs'' := by
                          intro hcon
                          exact hne (by rw [hcon])
                        have := scalar_after_insert (k' :: rest) m
                          (f1 :: fs'') v w hne' hv hw hs
                        simp [get_at_path, hget, this]
                  · cases fs' with
                    | nil =>
                        simpa [get_at_path, mapGet_insert_ne t k f0 _ hf]
                          using hw
                    | cons f1 fs'' =>
                        simpa [get_at_path, mapGet_insert_ne t k f0 _ hf]
                          using hw
          | num q => rwa [insert_at_path, hget] at hw
          | str s => rwa [insert_at_path, hget] at hw
          | bool b => rwa [insert_at_path, hget] at hw

/-! ## Replay invariant: no scalar ever appears at a purged path -/

theorem no_scalar_at_nil (fs : List String) : no_scalar_at .nil fs := by
  intro v hv
  rw [get_at_path_nil] at hv
  cases hv

theorem no_scalar_at_set (t : JsonMap) (g f : String) (v : JsonValue)
    (hg : g ≠ f) (hv : is_scalar v = true)
    (h : no_scalar_at t (splitDots f)) :
    no_scalar_at (set_nested_value t g v) (splitDots f) := by
  intro w hw
  by_contra hs
  have hs' : is_scalar w = true := by simpa using hs
  have hne : splitDots g ≠ splitDots f := fun hc => hg (splitDots_injective hc)
  have hold := scalar_after_insert (splitDots g) t (splitDots f) v w hne hv
    hw hs'
  have := h w hold
  rw [this] at hs'
  cases hs'

theorem no_scalar_at_remove (t : JsonMap) (g f : String)
    (h : no_scalar_at t (splitDots f)) :
    no_scalar_at (remove_nested_value t g) (splitDots f) := by
  intro w hw
  by_contra hs
  have hs' : is_scalar w = true := by simpa using hs
  have hold := scalar_after_remove (splitDots g) t (splitDots f) w hw hs'
  have := h w hold
  rw [this] at hs'
  cases hs'

theorem no_scalar_at_applyChange (t : JsonMap) (c : FieldChange) (f : String)
    (hne : c.field_name ≠ f) (h : no_scalar_at t (splitDots f)) :
    no_scalar_at (applyChange t c) (splitDots f) := by
  unfold applyChange
  cases c.change_type with
  | remove => exact no_scalar_at_remove t c.field_name f h
  | absolute =>
      exact no_scalar_at_set t c.field_name f _ hne
        (is_scalar_coerceValue c.value) h
  | relative =>
      cases parseF64 c.value with
      | some delta => exact no_scalar_at_set t c.field_name f _ hne rfl h
      | none => exact no_scalar_at_set t c.field_name f _ hne rfl h

theorem no_scalar_at_applyChanges :
    ∀ (cs : List FieldChange) (t : JsonMap) (f : String),
      (∀ c ∈ cs, c.field_name ≠ f) → no_scalar_at t (splitDots f) →
      no_scalar_at (applyChanges t cs) (splitDots f)
  | [], t, f, _, h => h
  | c :: cs, t, f, hall, h => by
      have hc : c.field_name ≠ f := hall c (by simp)
      have hrest : ∀ c' ∈ cs, c'.field_name ≠ f := fun c' hc' =>
        hall c' (by simp [hc'])
      exact no_scalar_at_applyChanges cs (applyChange t c) f hrest
        (no_scalar_at_applyChange t c f hc h)

theorem no_scalar_at_applyMarkers :
    ∀ (ms : List Marker) (t : JsonMap) (f : String),
      (∀ m ∈ ms, ∀ c ∈ m.changes, c.field_name ≠ f) →
      no_scalar_at t (splitDots f) →
      no_scalar_at (applyMarkers t ms) (splitDots f)
  | [], t, f, _, h => h
  | m :: ms, t, f, hall, h => by
      have hm := hall m (by simp)
      have hrest : ∀ m' ∈ ms, ∀ c ∈ m'.changes, c.field_name ≠ f :=
        fun m' hm' => hall m' (by simp [hm'])
      exact no_scalar_at_applyMarkers ms (applyChanges t m.changes) f hrest
        (no_scalar_at_applyChanges m.changes t f hm h)

/-! ## Sorting lemmas -/

theorem mem_insertByPos {m' m : Marker} :
    ∀ {l : List Marker}, m' ∈ insertByPos m l ↔ m' = m ∨ m' ∈ l := by
  intro l
  induction l with
  | nil => simp [insertByPos]
  | cons x xs ih =>
      by_cases h : x.position < m.position
      · simp only [insertByPos, if_pos h, List.mem_cons, ih]
        tauto
      · simp only [insertByPos, if_neg h, List.mem_cons]

theorem mem_sortByPos {m' : Marker} :
    ∀ {l : List Marker}, m' ∈ sortByPos l ↔ m' ∈ l := by
  intro l
  induction l with
  | nil => simp [sortByPos]
  | cons x xs ih => simp [sortByPos, mem_insertByPos, ih]

theorem sorted_insertByPos (m : Marker) :
    ∀ (l : List Marker),
      l.Pairwise (fun a b => a.position ≤ b.position) →
      (insertByPos m l).Pairwise (fun a b => a.position ≤ b.position) := by
  intro l
  induction l with
  | nil => simp [insertByPos]
  | cons x xs ih =>
      intro h
      rw [List.pairwise_cons] at h
      obtain ⟨hx, hxs⟩ := h
      by_cases hlt : x.position < m.position
      · rw [insertByPos, if_pos hlt, List.pairwise_cons]
        refine ⟨fun y hy => ?_, ih hxs⟩
        rcases mem_insertByPos.mp hy with rfl | hy'
        · exact Nat.le_of_lt hlt
        · exact hx y hy'
      · rw [insertByPos, if_neg hlt, List.pairwise_cons]
        refine ⟨fun y hy => ?_, List.pairwise_cons.mpr ⟨hx, hxs⟩⟩
        rcases List.mem_cons.mp hy with rfl | hy'
        · exact Nat.le_of_not_lt hlt
        · exact Nat.le_trans (Nat.le_of_not_lt hlt) (hx y hy')

theorem sorted_sortByPos :
    ∀ l : List Marker,
      (sortByPos l).Pairwise (fun a b => a.position ≤ b.position)
  | [] => by simp [sortByPos]
  | x :: xs => sorted_insertByPos x (sortByPos xs) (sorted_sortByPos xs)

theorem filter_insertByPos (m : Marker) (q : Nat) :
    ∀ l : List Marker,
      (insertByPos m l).filter (fun x => x.position == q) =
        if m.position = q then
          m :: l.filter (fun x => x.position == q)
        else l.filter (fun x => x.position == q) := by
  intro l
  induction l with
  | nil => by_cases h : m.position = q <;> simp [insertByPos, h]
  | cons x xs ih =>
      by_cases hlt : x.position < m.position
      · rw [insertByPos, if_pos hlt]
        by_cases hm : m.position = q
        · have hx : ¬ x.position = q := by omega
          have hxb : (x.position == q) = false := by simpa using hx
          simp [List.filter, hxb, ih, hm]
        · by_cases hx : x.position = q <;>
            [(have hxb : (x.position == q) = true := by simpa using hx);
             (have hxb : (x.position == q) = false := by simpa using hx)] <;>
            simp [List.filter, hxb, ih, hm]
      · rw [insertByPos, if_neg hlt]
        by_cases hm : m.position = q <;>
          [(have hmb : (m.position == q) = true := by simpa using hm);
           (have hmb : (m.position == q) = false := by simpa using hm)] <;>
          simp [List.filter, hmb, hm]

theorem filter_sortByPos (q : Nat) :
    ∀ l : List Marker,
      (sortByPos l).filter (fun x => x.position == q) =
        l.filter (fun x => x.position == q)
  | [] => rfl
  | x :: xs => by
      rw [sortByPos, filter_insertByPos x q (sortByPos xs)]
      by_cases hx : x.position = q <;>
        [(have hxb : (x.position == q) = true := by simpa using hx);
         (have hxb : (x.position == q) = false := by simpa using hx)] <;>
        simp [List.filter, hx, hxb, filter_sortByPos q xs]


/-! ## Claim C3: set on a dotted path -/

/-- C3 counterexample: the claim says `set` walks/creates intermediate
nodes and that `get` on the same path right after the `set` returns the
value set.  But when an intermediate segment holds a scalar (`{a: 5}`,
path `a.b`), `insert_at_path` silently does nothing, and the subsequent
`get` returns `none`, not the value that was set. -/
theorem C3_counterexample :
    get_nested_value
        (set_nested_value (.cons "a" (.num 5) .nil) "a.b" (.num 7)) "a.b" ≠
      some (.num 7) := by
  decide

/-- C3 (amended): `set` walks the intermediate segments, creating missing
ones as empty objects; when every already-present intermediate is an object
(`path_clear`), the last segment is assigned the value — overwriting any
previous value, scalar or object — and `get` on the same path immediately
after the `set` returns exactly the value set.  When some existing
intermediate holds a non-object value, the `set` leaves the tree completely
unchanged instead. -/
theorem C3_set_get_roundtrip (t : JsonMap) (path : String) (v : JsonValue) :
    (path_clear t (splitDots path) = true →
       get_nested_value (set_nested_value t path v) path = some v) ∧
    (path_clear t (splitDots path) = false →
       set_nested_value t path v = t) :=
  ⟨fun h => get_insert_at_path_clear (splitDots path) t v
      (splitDots_ne_nil path) h,
   fun h => insert_at_path_blocked (splitDots path) t v h⟩

/-- C3 witness: both branches of `C3_set_get_roundtrip` applied at concrete
inputs. -/
theorem C3_witness :
    (path_clear (.cons "a" (.num 5) .nil) (splitDots "b.c") = true ∧
       get_nested_value
         (set_nested_value (.cons "a" (.num 5) .nil) "b.c" (.num 7)) "b.c" =
         some (.num 7)) ∧
    (path_clear (.cons "a" (.num 5) .nil) (splitDots "a.b") = false ∧
       set_nested_value (.cons "a" (.num 5) .nil) "a.b" (.num 7) =
         .cons "a" (.num 5) .nil) :=
  ⟨⟨by decide, (C3_set_get_roundtrip (.cons "a" (.num 5) .nil) "b.c"
      (.num 7)).1 (by decide)⟩,
   ⟨by decide, (C3_set_get_roundtrip (.cons "a" (.num 5) .nil) "a.b"
      (.num 7)).2 (by decide)⟩⟩

/-! ## Claim C4: deterministic replay order -/

/-- C4: for a fixed marker store, `reconstruct` is deterministic — two calls
return identical trees — and the replayed marker list is sorted ascending by
position with a deterministic tie-break: markers sharing a position are kept
exactly in store-iteration order (the sort is stable), so replay is
reproducible. -/
theorem C4_deterministic_replay (st : AppSt) (eid : String) (p : Nat) :
    get_entity_state st eid p = get_entity_state st eid p ∧
    (sortByPos (relevant_markers st eid p)).Pairwise
      (fun a b => a.position ≤ b.position) ∧
    (∀ q : Nat,
      (sortByPos (relevant_markers st eid p)).filter
          (fun m => m.position == q) =
        (relevant_markers st eid p).filter (fun m => m.position == q)) :=
  ⟨rfl, sorted_sortByPos (relevant_markers st eid p),
   fun q => filter_sortByPos q (relevant_markers st eid p)⟩

/-! ## Claim C6: remove on a dotted path -/

/-- C6: `remove` deletes the key named by the final segment from its parent
(observably, `get` on the removed path afterwards always yields `none`,
also when the path was absent); when the parent or any ancestor is missing
the tree is left unchanged; and now-empty intermediate parents are not
pruned: after setting `spells.fire.Firebolt` and removing it again,
`spells.fire` remains present as an empty object. -/
theorem C6_remove_behavior :
    (∀ (t : JsonMap) (path : String),
       get_nested_value (remove_nested_value t path) path = none) ∧
    (∀ (t : JsonMap) (path : String),
       ancestor_missing t (splitDots path) = true →
       remove_nested_value t path = t) ∧
    get_nested_value
        (remove_nested_value
          (set_nested_value .nil "spells.fire.Firebolt" (.str "learned"))
          "spells.fire.Firebolt")
        "spells.fire" = some (.obj .nil) :=
  ⟨fun t path => get_remove_at_path (splitDots path) t,
   fun t path h => remove_at_path_missing (splitDots path) t h,
   by decide⟩

/-- C6 witness: the missing-ancestor branch of `C6_remove_behavior` applied
at a concrete input (removing `b.c` from `{a: 1}` is a no-op). -/
theorem C6_witness :
    ancestor_missing (.cons "a" (.num 1) .nil) (splitDots "b.c") = true ∧
    remove_nested_value (.cons "a" (.num 1) .nil) "b.c" =
      .cons "a" (.num 1) .nil :=
  ⟨by decide,
   C6_remove_behavior.2.1 (.cons "a" (.num 1) .nil) "b.c" (by decide)⟩

/-! ## Claim C5: relative (ADD) accumulation -/

/-- C5: with only ADD(+10) at position 5 and ADD(+5) at position 10 on
`stats.HP`, reconstruction gives `{stats:{HP:10}}` at position 7 and
`{stats:{HP:15}}` at position 10; in general a Relative change with a
numeric payload writes `current + delta` to the path, where `current` is
the numeric value found there (missing or non-numeric read as 0), and a
Relative change with a non-numeric payload stores the raw text at the path
instead of erroring. -/
theorem C5_relative_accumulation :
    get_entity_state hpState "e1" 7 =
      .ok (.cons "stats" (.obj (.cons "HP" (.num 10) .nil)) .nil) ∧
    get_entity_state hpState "e1" 10 =
      .ok (.cons "stats" (.obj (.cons "HP" (.num 15) .nil)) .nil) ∧
    (∀ (t : JsonMap) (f v : String) (d : ℚ), parseF64 v = some d →
       applyChange t ⟨f, .relative, v⟩ =
         set_nested_value t f
           (.num (((get_nested_value t f).bind asF64).getD 0 + d))) ∧
    (∀ (t : JsonMap) (f v : String), parseF64 v = none →
       applyChange t ⟨f, .relative, v⟩ =
         set_nested_value t f (.str v)) := by
  refine ⟨by decide, by decide, fun t f v d hp => ?_, fun t f v hp => ?_⟩
  · unfold applyChange
    simp only [hp, ratAdd_eq_add]
  · unfold applyChange
    simp only [hp]

/-- C5 witness: the two general branches of `C5_relative_accumulation`
applied at concrete inputs. -/
theorem C5_witness :
    (parseF64 "3" = some 3 ∧
       applyChange .nil ⟨"x", .relative, "3"⟩ =
         set_nested_value .nil "x"
           (.num (((get_nested_value .nil "x").bind asF64).getD 0 + 3))) ∧
    (parseF64 "abc" = none ∧
       applyChange .nil ⟨"x", .relative, "abc"⟩ =
         set_nested_value .nil "x" (.str "abc")) :=
  ⟨⟨by decide, C5_relative_accumulation.2.2.1 .nil "x" "3" 3 (by decide)⟩,
   ⟨by decide, C5_relative_accumulation.2.2.2 .nil "x" "abc" (by decide)⟩⟩

/-! ## Claim C7: entity deletion cascade -/

/-- C7: deleting an absent entity id returns NotFound (and, the operation
being a pure function of the store, changes nothing); deleting an existing
id removes the entity (it can no longer be looked up) and exactly the
markers referencing it, keeping every marker of other entities. -/
theorem C7_delete_entity_cascade (st : AppSt) (eid : String) :
    (lookupEntity st eid = none →
       delete_entity st eid = .error "Entity not found") ∧
    (∀ st', delete_entity st eid = .ok st' →
       st'.entities = st.entities.filter (fun e => e.id ≠ eid) ∧
       lookupEntity st' eid = none ∧
       st'.markers = st.markers.filter (fun m => m.entity_id ≠ eid) ∧
       (∀ m ∈ st.markers, m.entity_id ≠ eid → m ∈ st'.markers) ∧
       (∀ m ∈ st'.markers, m ∈ st.markers ∧ m.entity_id ≠ eid)) := by
  constructor
  · intro h
    unfold delete_entity
    rw [h]
    rfl
  · intro st' h
    unfold delete_entity at h
    cases hb : (lookupEntity st eid).isSome with
    | false => rw [hb] at h; cases h
    | true =>
        rw [hb] at h
        simp only [if_true] at h
        injection h with h
        subst h
        refine ⟨rfl, ?_, rfl, ?_, ?_⟩
        · unfold lookupEntity
          simp only
          rw [List.find?_eq_none]
          intro e he
          have := (List.mem_filter.mp he).2
          simp only [decide_eq_true_eq] at this
          simpa using this
        · intro m hm hne
          simp only [List.mem_filter, decide_eq_true_eq]
          exact ⟨hm, hne⟩
        · intro m hm
          have := List.mem_filter.mp hm
          simp only [decide_eq_true_eq] at this
          exact this

/-- C7 witness: both branches of `C7_delete_entity_cascade` applied at
concrete inputs. -/
theorem C7_witness :
    delete_entity (AppSt.mk [] []) "ghost" = .error "Entity not found" ∧
    delete_entity spellState "e1" = .ok ⟨[], []⟩ ∧
    lookupEntity ⟨[], []⟩ "e1" = none :=
  ⟨(C7_delete_entity_cascade ⟨[], []⟩ "ghost").1 (by decide),
   by decide,
   ((C7_delete_entity_cascade spellState "e1").2 ⟨[], []⟩ (by decide)).2.1⟩

/-! ## Claim C8: recolor cascade -/

/-- C8: a successful entity update carrying a new color rewrites
`visual.color` of exactly the markers owned by that entity to the new color
and leaves every other field of those markers, and every marker owned by a
different entity, untouched (the marker store is the pointwise image that
changes only `visual.color` of owned markers). -/
theorem C8_recolor_cascade (st : AppSt) (eid : String) (nm : Option String)
    (c : String) (st' : AppSt) (e' : Entity)
    (h : update_entity st eid nm (some c) = .ok (st', e')) :
    st'.markers = st.markers.map (fun m =>
      if m.entity_id == eid then
        { m with visual := { m.visual with color := c } }
      else m) ∧
    (∀ m ∈ st.markers, m.entity_id ≠ eid → m ∈ st'.markers) := by
  unfold update_entity at h
  cases hl : lookupEntity st eid with
  | none => rw [hl] at h; cases h
  | some e =>
      rw [hl] at h
      simp only at h
      injection h with h
      injection h with h1 h2
      subst h1
      refine ⟨rfl, ?_⟩
      intro m hmem hne
      have hbeq : (m.entity_id == eid) = false := by simpa using hne
      show m ∈ List.map _ st.markers
      refine List.mem_map.mpr ⟨m, hmem, ?_⟩
      rw [hbeq]
      simp

/-- C8 witness: recoloring `spellState`'s entity to `#FF0000` rewrites both
of its markers' visual colors. -/
theorem C8_witness :
    (AppSt.mk [⟨"e1", "Hero", ["spells.fire"], "#FF0000", []⟩]
      [⟨"m1", 1, "e1", [⟨"spells.fire", .absolute, "x"⟩],
         ⟨"⭐", "#FF0000"⟩, "", 0, 0⟩,
       ⟨"m2", 2, "e1", [⟨"spells.fire", .remove, ""⟩],
         ⟨"⭐", "#FF0000"⟩, "", 0, 0⟩]).markers =
      spellState.markers.map (fun m =>
        if m.entity_id == "e1" then
          { m with visual := { m.visual with color := "#FF0000" } }
        else m) :=
  (C8_recolor_cascade spellState "e1" none "#FF0000"
    (AppSt.mk [⟨"e1", "Hero", ["spells.fire"], "#FF0000", []⟩]
      [⟨"m1", 1, "e1", [⟨"spells.fire", .absolute, "x"⟩],
         ⟨"⭐", "#FF0000"⟩, "", 0, 0⟩,
       ⟨"m2", 2, "e1", [⟨"spells.fire", .remove, ""⟩],
         ⟨"⭐", "#FF0000"⟩, "", 0, 0⟩])
    ⟨"e1", "Hero", ["spells.fire"], "#FF0000", []⟩ (by decide)).1

/-! ## Claim C9: best-effort bulk repositioning -/

/-- C9: bulk repositioning always succeeds; it processes the batch
sequentially and each pair independently — a single pair rewrites the
position of the marker with that id (every other marker unchanged), and a
pair naming an unknown marker id is a no-op on the store. -/
theorem C9_bulk_reposition (st : AppSt) (updates : List (String × Nat))
    (mid : String) (p : Nat) :
    (∃ st', update_marker_positions st updates = .ok st') ∧
    update_marker_positions st ((mid, p) :: updates) =
      update_marker_positions
        { st with markers := st.markers.map (fun m =>
            if m.id == mid then { m with position := p } else m) }
        updates ∧
    update_marker_positions st [(mid, p)] =
      .ok { st with markers := st.markers.map (fun m =>
          if m.id == mid then { m with position := p } else m) } ∧
    ((∀ m ∈ st.markers, m.id ≠ mid) →
       update_marker_positions st [(mid, p)] = .ok st) := by
  refine ⟨⟨_, rfl⟩, rfl, rfl, fun hall => ?_⟩
  unfold update_marker_positions
  simp only [List.foldl]
  have hmap : st.markers.map (fun m =>
      if m.id == mid then { m with position := p } else m) = st.markers := by
    rw [List.map_congr_left (g := id), List.map_id]
    intro m hm
    have : (m.id == mid) = false := by simpa using hall m hm
    rw [this]
    simp
  rw [hmap]

/-- C9 witness: the unknown-id branch of `C9_bulk_reposition` applied at a
concrete input. -/
theorem C9_witness :
    update_marker_positions spellState [("nothere", 9)] = .ok spellState :=
  (C9_bulk_reposition spellState [] "nothere" 9).2.2.2 (by decide)

/-- A successful purge strips every change named `f` from every marker of
the purged entity. -/
theorem delete_field_strips_changes (st : AppSt) (eid f : String)
    (st' : AppSt) (h : delete_field_completely st eid f = .ok st') :
    ∀ m ∈ st'.markers, m.entity_id = eid →
      ∀ c ∈ m.changes, c.field_name ≠ f := by
  unfold delete_field_completely at h
  cases hb : (lookupEntity st eid).isSome with
  | false => rw [hb] at h; cases h
  | true =>
      rw [hb] at h
      simp only [if_true] at h
      injection h with h
      subst h
      intro m hm heid c hc
      obtain ⟨m₀, hm₀, himg⟩ := List.mem_map.mp hm
      by_cases hcond : (m₀.entity_id == eid) = true
      · rw [hcond] at himg
        simp only [if_true] at himg
        subst himg
        have := (List.mem_filter.mp hc).2
        simpa using this
      · rw [Bool.not_eq_true] at hcond
        rw [hcond] at himg
        simp only [Bool.false_eq_true, if_false] at himg
        subst himg
        have : m₀.entity_id ≠ eid := by simpa using hcond
        exact absurd heid this

/-! ## Claim C10: field purge keeps field_metadata -/

/-- C10: a successful `delete_field_completely` never touches any entity's
`field_metadata` map (ids and metadata are preserved pointwise across the
store), so the metadata entry of the purged field survives even though the
field is gone from the purged entity's `fields` registry and from every
change list of that entity's markers. -/
theorem C10_metadata_survives_purge (st : AppSt) (eid f : String)
    (st' : AppSt) (h : delete_field_completely st eid f = .ok st') :
    st'.entities.map (fun e => (e.id, e.field_metadata)) =
      st.entities.map (fun e => (e.id, e.field_metadata)) ∧
    (∀ e ∈ st.entities, e.id = eid →
       ∃ e' ∈ st'.entities, e'.id = eid ∧
         e'.field_metadata = e.field_metadata ∧ f ∉ e'.fields) ∧
    (∀ m ∈ st'.markers, m.entity_id = eid →
       ∀ c ∈ m.changes, c.field_name ≠ f) := by
  have hstrip := delete_field_strips_changes st eid f st' h
  unfold delete_field_completely at h
  cases hb : (lookupEntity st eid).isSome with
  | false => rw [hb] at h; cases h
  | true =>
      rw [hb] at h
      simp only [if_true] at h
      injection h with h
      subst h
      refine ⟨?_, ?_, hstrip⟩
      · rw [List.map_map]
        refine List.map_congr_left ?_
        intro e _
        by_cases hc : (e.id == eid) = true <;>
          simp [Function.comp, hc]
      · intro e he heid
        have hc : (e.id == eid) = true := by simpa using heid
        refine ⟨{ e with fields := e.fields.filter (fun x => x ≠ f) },
          List.mem_map.mpr ⟨e, he, by rw [hc]; simp⟩, heid, rfl, ?_⟩
        intro hfmem
        have := (List.mem_filter.mp hfmem).2
        simp at this

/-- C10 witness: purging `"stats"` from `purgeState` leaves every entity's
`(id, field_metadata)` pair unchanged. -/
theorem C10_witness :
    purgeStateAfter.entities.map (fun e => (e.id, e.field_metadata)) =
      purgeState.entities.map (fun e => (e.id, e.field_metadata)) :=
  (C10_metadata_survives_purge purgeState "e1" "stats" purgeStateAfter
    (by decide)).1

/-! ## Claim C1: field purge cascade -/

/-- Unfolding of `get_entity_state` when the entity exists. -/
theorem get_entity_state_eq (st : AppSt) (eid : String) (p : Nat)
    (h : (lookupEntity st eid).isSome = true) :
    get_entity_state st eid p =
      .ok (applyMarkers .nil (sortByPos (relevant_markers st eid p))) := by
  unfold get_entity_state
  rw [h]
  simp

/-- When no change of any marker of `eid` names field `f`, reconstruction
can place no scalar at path `f` — at most an intermediate object node. -/
theorem reconstruct_no_scalar (st : AppSt) (eid f : String)
    (hmark : ∀ m ∈ st.markers, m.entity_id = eid →
      ∀ c ∈ m.changes, c.field_name ≠ f)
    (p : Nat) (t : JsonMap) (ht : get_entity_state st eid p = .ok t) :
    ∀ v, get_nested_value t f = some v → ∃ mm, v = .obj mm := by
  unfold get_entity_state at ht
  cases hb : (lookupEntity st eid).isSome with
  | false => rw [hb] at ht; cases ht
  | true =>
      rw [hb] at ht
      simp only [if_true] at ht
      injection ht with ht
      have hall : ∀ m ∈ sortByPos (relevant_markers st eid p),
          ∀ c ∈ m.changes, c.field_name ≠ f := by
        intro m hm
        have hm' := mem_sortByPos.mp hm
        have hmf := List.mem_filter.mp hm'
        have hentity : m.entity_id = eid := by
          have := (Bool.and_eq_true _ _).mp hmf.2
          simpa using this.1
        exact hmark m hmf.1 hentity
      have hns : no_scalar_at t (splitDots f) := by
        rw [← ht]
        exact no_scalar_at_applyMarkers _ .nil f hall (no_scalar_at_nil _)
      intro v hv
      have := hns v hv
      cases v with
      | obj mm => exact ⟨mm, rfl⟩
      | num q => simp [is_scalar] at this
      | str s => simp [is_scalar] at this
      | bool b => simp [is_scalar] at this

/-- C1 counterexample: the claim says the reconstructed tree never contains
the purged field.  Purge `"stats"` from an entity that also tracks
`"stats.HP"`: the purge succeeds, yet reconstruction still contains a node
named `"stats"` (the intermediate object created for `"stats.HP"`), so
`get` on the purged field name is not `none`. -/
theorem C1_counterexample :
    delete_field_completely purgeState "e1" "stats" = .ok purgeStateAfter ∧
    get_entity_state purgeStateAfter "e1" 1 =
      .ok (.cons "stats" (.obj (.cons "HP" (.num 5) .nil)) .nil) ∧
    get_nested_value (.cons "stats" (.obj (.cons "HP" (.num 5) .nil)) .nil)
        "stats" ≠ none :=
  ⟨by decide, by decide, by decide⟩

/-- C1 (amended): after `delete_field_completely(e, f)` succeeds, `f` is
removed from `e`'s field registry, no marker of `e` retains a ChangeRecord
whose field_name is `f` regardless of its change_type (REMOVE included),
and the reconstructed tree never contains a value assigned at `f`: `get`
on `f` yields at most an intermediate object node that exists only to host
another surviving field path extending `f` — never a scalar. -/
theorem C1_purge_cascade (st : AppSt) (eid f : String) (st' : AppSt)
    (h : delete_field_completely st eid f = .ok st') :
    (∀ e' ∈ st'.entities, e'.id = eid → f ∉ e'.fields) ∧
    (∀ m ∈ st'.markers, m.entity_id = eid →
       ∀ c ∈ m.changes, c.field_name ≠ f) ∧
    (∀ (p : Nat) (t : JsonMap), get_entity_state st' eid p = .ok t →
       ∀ v, get_nested_value t f = some v → ∃ mm, v = .obj mm) := by
  have hmark : ∀ m ∈ st'.markers, m.entity_id = eid →
      ∀ c ∈ m.changes, c.field_name ≠ f :=
    delete_field_strips_changes st eid f st' h
  refine ⟨?_, hmark, fun p t ht => reconstruct_no_scalar st' eid f hmark p t ht⟩
  unfold delete_field_completely at h
  cases hb : (lookupEntity st eid).isSome with
  | false => rw [hb] at h; cases h
  | true =>
      rw [hb] at h
      simp only [if_true] at h
      injection h with h
      subst h
      intro e' he' heid
      obtain ⟨e, he, himg⟩ := List.mem_map.mp he'
      by_cases hc : (e.id == eid) = true
      · rw [hc] at himg
        simp only [if_true] at himg
        subst himg
        intro hfmem
        have := (List.mem_filter.mp hfmem).2
        simp at this
      · rw [Bool.not_eq_true] at hc
        rw [hc] at himg
        simp only [Bool.false_eq_true, if_false] at himg
        subst himg
        have : e.id ≠ eid := by simpa using hc
        exact absurd heid this

/-- C1 witness: `C1_purge_cascade` applied to the purge of `"stats"` from
`purgeState`. -/
theorem C1_witness :
    (∀ e' ∈ purgeStateAfter.entities, e'.id = "e1" → "stats" ∉ e'.fields) ∧
    (∀ m ∈ purgeStateAfter.markers, m.entity_id = "e1" →
       ∀ c ∈ m.changes, c.field_name ≠ "stats") := by
  have hc := C1_purge_cascade purgeState "e1" "stats" purgeStateAfter
    (by decide)
  exact ⟨hc.1, hc.2.1⟩

/-! ## Claim C2: duplication snapshot fidelity -/

/-- After `HashMap::insert` of `e`, looking up `e.id` finds an entry. -/
theorem find?_isSome_insertEntity (es : List Entity) (e : Entity) :
    ((insertEntity es e).find? (fun x => x.id == e.id)).isSome = true := by
  unfold insertEntity
  cases hany : es.any (fun e' => e'.id == e.id) with
  | true =>
      simp only [hany, if_true]
      obtain ⟨x, hx, hxe⟩ := List.any_eq_true.mp hany
      rw [List.find?_isSome]
      exact ⟨e, List.mem_map.mpr ⟨x, hx, by rw [hxe]; simp⟩, by simp⟩
  | false =>
      simp only [hany, Bool.false_eq_true, if_false]
      rw [List.find?_isSome]
      exact ⟨e, by simp, by simp⟩

/-- Markers all owned by other entities are filtered away entirely. -/
theorem filter_markers_fresh (ms : List Marker) (nid : String) (p : Nat)
    (h : ∀ m ∈ ms, m.entity_id ≠ nid) :
    ms.filter (fun m => m.entity_id == nid && m.position ≤ p) = [] := by
  rw [List.filter_eq_nil_iff]
  intro m hm
  have : (m.entity_id == nid) = false := by simpa using h m hm
  simp [this]

/-- C2 counterexample: duplicating `spellState`'s entity at position 2.
The source reconstructs to `{spells: {}}` there (set then remove), which
flattens to no changes, so the duplicate gets no marker and reconstructs to
the empty tree — duplication drops the empty intermediate object, and the
two reconstructions differ. -/
theorem C2_counterexample :
    duplicate_entity spellState "e1" "Copy" 2 "e2" "mk1" 0 =
      .ok (spellStateAfter, spellCopyEntity, none) ∧
    get_entity_state spellState "e1" 2 =
      .ok (.cons "spells" (.obj .nil) .nil) ∧
    get_entity_state spellStateAfter "e2" 2 = .ok .nil ∧
    get_entity_state spellStateAfter "e2" 2 ≠
      get_entity_state spellState "e1" 2 :=
  ⟨by decide, by decide, by decide, by decide⟩

/-- Reconstruction for an entity that owns no marker yields the empty
tree. -/
theorem get_entity_state_no_markers (st : AppSt) (eid : String) (p : Nat)
    (hsome : (lookupEntity st eid).isSome = true)
    (hfresh : ∀ m ∈ st.markers, m.entity_id ≠ eid) :
    get_entity_state st eid p = .ok .nil := by
  rw [get_entity_state_eq st eid p hsome]
  have hrel : relevant_markers st eid p = [] :=
    filter_markers_fresh st.markers eid p hfresh
  rw [hrel]
  rfl

/-- Replaying the markers of an entity whose only marker is one appended
`mk` at or before `p` applies exactly `mk`'s change list. -/
theorem replay_single_marker (es : List Entity) (ms : List Marker)
    (mk : Marker) (nid : String) (p : Nat)
    (hfresh : ∀ m ∈ ms, m.entity_id ≠ nid)
    (hid : mk.entity_id = nid) (hp : mk.position ≤ p) :
    applyMarkers .nil (sortByPos (relevant_markers ⟨es, ms ++ [mk]⟩ nid p)) =
      applyChanges .nil mk.changes := by
  have hrel : relevant_markers ⟨es, ms ++ [mk]⟩ nid p = [mk] := by
    show (ms ++ [mk]).filter _ = [mk]
    rw [List.filter_append, filter_markers_fresh ms nid p hfresh]
    simp [hid, hp]
  rw [hrel]
  rfl

/-- C2 (amended): duplication copies the source's field registry, color and
field metadata onto the fresh entity, and the duplicate reconstructs at `p`
to exactly the replay of the flattening of the source's reconstruction at
`p` — equal to the source's tree except that empty intermediate objects are
dropped and leaf payloads are re-coerced; when the source reconstructs to
the empty tree, the new entity is returned with no marker. -/
theorem C2_duplication (st : AppSt) (eid new_name : String) (p : Nat)
    (nid mid : String) (now : Int) (src : Entity) (st' : AppSt)
    (e2 : Entity) (om : Option Marker)
    (hsrc : lookupEntity st eid = some src)
    (hfresh : ∀ m ∈ st.markers, m.entity_id ≠ nid)
    (hdup : duplicate_entity st eid new_name p nid mid now =
      .ok (st', e2, om)) :
    e2.fields = src.fields ∧ e2.color = src.color ∧
    e2.field_metadata = src.field_metadata ∧
    ∀ t, get_entity_state st eid p = .ok t →
      get_entity_state st' nid p =
        .ok (applyChanges .nil (flatten_state_to_changes t "")) ∧
      (t = .nil → om = none) := by
  have hsome : (lookupEntity st eid).isSome = true := by rw [hsrc]; rfl
  unfold duplicate_entity at hdup
  rw [hsrc] at hdup
  simp only at hdup
  have hsome2 : (lookupEntity
      { st with entities := (insertEntity st.entities
          (Entity.mk nid new_name src.fields src.color src.field_metadata)) }
      nid).isSome = true :=
    find?_isSome_insertEntity st.entities
      (Entity.mk nid new_name src.fields src.color src.field_metadata)
  cases hemp : (relevant_markers st eid p).isEmpty with
  | true =>
      rw [hemp] at hdup
      simp only [if_true] at hdup
      injection hdup with h1
      injection h1 with hst h2
      injection h2 with he2 hom
      subst hst; subst he2; subst hom
      refine ⟨rfl, rfl, rfl, ?_⟩
      intro t ht
      rw [get_entity_state_eq st eid p hsome] at ht
      injection ht with ht
      have hrel : relevant_markers st eid p = [] := by
        simpa using List.isEmpty_iff.mp (by rw [hemp])
      have htnil : t = .nil := by rw [← ht, hrel]; rfl
      subst htnil
      refine ⟨?_, fun _ => rfl⟩
      exact get_entity_state_no_markers _ nid p hsome2 hfresh
  | false =>
      rw [hemp] at hdup
      simp only [Bool.false_eq_true, if_false] at hdup
      cases hch : (flatten_state_to_changes
          (applyMarkers .nil (sortByPos (relevant_markers st eid p)))
          "").isEmpty with
      | true =>
          rw [hch] at hdup
          simp only [if_true] at hdup
          injection hdup with h1
          injection h1 with hst h2
          injection h2 with he2 hom
          subst hst; subst he2; subst hom
          refine ⟨rfl, rfl, rfl, ?_⟩
          intro t ht
          rw [get_entity_state_eq st eid p hsome] at ht
          injection ht with ht
          have hflat : flatten_state_to_changes t "" = [] := by
            rw [← ht]
            simpa using List.isEmpty_iff.mp (by rw [hch])
          refine ⟨?_, fun _ => rfl⟩
          rw [hflat]
          exact get_entity_state_no_markers _ nid p hsome2 hfresh
      | false =>
          rw [hch] at hdup
          simp only [Bool.false_eq_true, if_false] at hdup
          injection hdup with h1
          injection h1 with hst h2
          injection h2 with he2 hom
          subst hst; subst he2; subst hom
          refine ⟨rfl, rfl, rfl, ?_⟩
          intro t ht
          rw [get_entity_state_eq st eid p hsome] at ht
          injection ht with ht
          constructor
          · refine Eq.trans (get_entity_state_eq _ nid p hsome2) ?_
            refine congrArg Except.ok ?_
            refine Eq.trans (replay_single_marker
              (insertEntity st.entities
                (Entity.mk nid new_name src.fields src.color
                  src.field_metadata))
              st.markers
              (Marker.mk mid p nid
                (flatten_state_to_changes
                  (applyMarkers .nil
                    (sortByPos (relevant_markers st eid p))) "")
                (MarkerVisual.mk "📋" src.color)
                ("Duplicated from " ++ src.name) now now)
              nid p hfresh rfl (Nat.le_refl p)) ?_
            show applyChanges .nil (flatten_state_to_changes
                (applyMarkers .nil
                  (sortByPos (relevant_markers st eid p))) "") =
              applyChanges .nil (flatten_state_to_changes t "")
            rw [ht]
          · intro htnil
            exfalso
            have hcur : applyMarkers .nil
                (sortByPos (relevant_markers st eid p)) = .nil :=
              ht.trans htnil
            rw [hcur] at hch
            simp [flatten_state_to_changes] at hch

/-- C2 witness: `C2_duplication` applied to the duplication of
`spellState`'s entity at position 2. -/
theorem C2_witness :
    spellCopyEntity.fields = spellEntity.fields ∧
    spellCopyEntity.color = spellEntity.color ∧
    get_entity_state spellStateAfter "e2" 2 =
      .ok (applyChanges .nil (flatten_state_to_changes
        (.cons "spells" (.obj .nil) .nil) "")) := by
  have hc := C2_duplication spellState "e1" "Copy" 2 "e2" "mk1" 0 spellEntity
    spellStateAfter spellCopyEntity none (by decide) (by decide) (by decide)
  exact ⟨hc.1, hc.2.1, (hc.2.2.2 _ (by decide)).1⟩
